import Mathlib

/-
Shallow embedding of the cryptanalysis engine of the gameday-agentcore
repository (cipher_rookie_agent.py, pattern_detective_agent.py,
steganography_hunter_agent.py).

Strings are modeled as `List Char`.  Python's character classification and
case mapping (str.isalpha, str.isupper, str.islower, str.upper, str.lower,
str.isspace) depend on the Unicode database; this development models them
faithfully on the Basic Latin (ASCII) and Latin-1 Supplement repertoire,
which is the domain on which all theorems and counterexamples below are
stated.  Scores are modeled as rationals (Python floats; all quantities the
code produces are small dyadic-style rationals and only their ordered-field
structure is used).  Code that can raise an exception is modeled with
`Except` (the error string is the Python exception text); fixed-table
lookups that can fail are modeled with `Option`.
-/

/- Python character model -/

/-- `string.ascii_uppercase`. -/
def asciiUppercase : List Char := "ABCDEFGHIJKLMNOPQRSTUVWXYZ".data

/-- `string.ascii_lowercase`. -/
def asciiLowercase : List Char := "abcdefghijklmnopqrstuvwxyz".data

/-- The uppercase letters of the Latin-1 Supplement (U+00C0 to U+00DE minus the
multiplication sign U+00D7). -/
def latin1Uppers : List Char := "ÀÁÂÃÄÅÆÇÈÉÊËÌÍÎÏÐÑÒÓÔÕÖØÙÚÛÜÝÞ".data

/-- The lowercase partners of `latin1Uppers` (U+00E0 to U+00FE minus the
division sign U+00F7); `ß`, `ÿ`, `µ`, `ª`, `º` are lowercase letters with no
lowercase/uppercase partner at distance 0x20 and are handled separately. -/
def latin1Lowers : List Char := "àáâãäåæçèéêëìíîïðñòóôõöøùúûüýþ".data

/-- The simple case-mapping table of the modeled repertoire: each uppercase
letter paired with its lowercase form (Python's str.upper/str.lower are
driven by exactly this table on this repertoire, apart from the special
cases `ß`, `ÿ`, `µ`). -/
def caseTable : List (Char × Char) :=
  asciiUppercase.zip asciiLowercase ++ latin1Uppers.zip latin1Lowers

/-- Lowercase letters with no partner in `caseTable` whose `str.islower` is
true in Python (`ß`, `ÿ`, `µ`, `ª`, `º`). -/
def extraLowerChars : List Char := "ßÿµªº".data

/-- Python `str.isupper` on a single character of the modeled repertoire. -/
def pyIsUpper (c : Char) : Bool :=
  asciiUppercase.contains c || latin1Uppers.contains c

/-- Python `str.islower` on a single character of the modeled repertoire. -/
def pyIsLower (c : Char) : Bool :=
  asciiLowercase.contains c || latin1Lowers.contains c || extraLowerChars.contains c

/-- Python `str.isalpha` on a single character of the modeled repertoire:
every Latin-1 letter is either uppercase or lowercase. -/
def pyIsAlpha (c : Char) : Bool :=
  pyIsUpper c || pyIsLower c

/-- Python whitespace (`str.isspace`, `str.strip`, `str.split`, and the
regex class backslash-s agree on this set within the modeled repertoire). -/
def pyIsSpace (c : Char) : Bool :=
  " \t\n\r\x0b\x0c\x1c\x1d\x1e\x1f\x85\xa0".data.contains c

/-- Python `str.upper` of one character, as a string: `ß` uppercases to the
two-character `SS`, `µ` to Greek capital Mu, `ÿ` to U+0178; characters with
a `caseTable` partner map to it; everything else is unchanged. -/
def pyCharUpper (c : Char) : List Char :=
  if c = 'ß' then "SS".data
  else if c = 'µ' then "Μ".data
  else if c = 'ÿ' then "Ÿ".data
  else match caseTable.find? (fun p => p.2 = c) with
    | some p => [p.1]
    | none => [c]

/-- Python `str.lower` of one character (single-valued on the modeled
repertoire). -/
def pyCharLower (c : Char) : Char :=
  match caseTable.lookup c with
  | some l => l
  | none => c

/-- Python `str.upper` on a string. -/
def pyUpper (l : List Char) : List Char := l.flatMap pyCharUpper

/-- Python `str.lower` on a string. -/
def pyLower (l : List Char) : List Char := l.map pyCharLower

/-- Python `str.strip()` (no argument): remove leading and trailing
whitespace. -/
def pyStrip (l : List Char) : List Char :=
  ((l.dropWhile pyIsSpace).reverse.dropWhile pyIsSpace).reverse

/-- `re.sub(r"\s+", " ", ...)`: collapse every maximal whitespace run to a
single space. -/
def collapseWs : List Char → List Char
  | [] => []
  | [c] => if pyIsSpace c then [' '] else [c]
  | c :: d :: cs =>
    if pyIsSpace c then
      if pyIsSpace d then collapseWs (d :: cs) else ' ' :: collapseWs (d :: cs)
    else c :: collapseWs (d :: cs)

/-- Accumulator-style worker for `splitRuns`; `current` holds the letters of
the run in progress, reversed. -/
def splitRunsGo (p : Char → Bool) (current : List Char) : List Char → List (List Char)
  | [] => if current.isEmpty then [] else [current.reverse]
  | c :: cs =>
    if p c then splitRunsGo p (c :: current) cs
    else if current.isEmpty then splitRunsGo p [] cs
    else current.reverse :: splitRunsGo p [] cs

/-- The maximal nonempty runs of characters satisfying `p`, in order: this is
`re.findall` of a character-class-plus pattern, and (with `p` = not
whitespace) Python's `str.split()` with no argument. -/
def splitRuns (p : Char → Bool) (l : List Char) : List (List Char) :=
  splitRunsGo p [] l

/-- Python `str.split()` with no argument. -/
def pySplitWs (l : List Char) : List (List Char) :=
  splitRuns (fun c => !pyIsSpace c) l

/-- Is `tgt` a prefix of `l`? (worker for `pyReplace`). -/
def isTargetAt : List Char → List Char → Bool
  | [], _ => true
  | _ :: _, [] => false
  | t :: ts, c :: cs => t == c && isTargetAt ts cs

/-- Fuel-driven worker for `pyReplace`; the fuel is an upper bound on the
number of characters still to be consumed, so it never runs out on the
wrapper's call. -/
def pyReplaceGo (tgt rep : List Char) : ℕ → List Char → List Char
  | _, [] => []
  | 0, l => l
  | fuel + 1, c :: cs =>
    if tgt ≠ [] && isTargetAt tgt (c :: cs) then
      rep ++ pyReplaceGo tgt rep fuel (List.drop tgt.length (c :: cs))
    else
      c :: pyReplaceGo tgt rep fuel cs

/-- Python `str.replace(tgt, rep)`: replace every non-overlapping occurrence
of `tgt`, scanning left to right (used only with nonempty `tgt`). -/
def pyReplace (l tgt rep : List Char) : List Char :=
  pyReplaceGo tgt rep l.length l

/-- Line-break characters of Python `str.splitlines` within the modeled
repertoire (note: U+001F and U+00A0 are whitespace but not line breaks). -/
def pyIsLineBreak (c : Char) : Bool :=
  "\n\r\x0b\x0c\x1c\x1d\x1e\x85".data.contains c

/-- Worker for `pySplitlines`; `current` is the line in progress, reversed. -/
def pySplitlinesGo (current : List Char) : List Char → List (List Char)
  | [] => if current.isEmpty then [] else [current.reverse]
  | '\r' :: '\n' :: rest => current.reverse :: pySplitlinesGo [] rest
  | c :: cs =>
    if pyIsLineBreak c then current.reverse :: pySplitlinesGo [] cs
    else pySplitlinesGo (c :: current) cs

/-- Python `str.splitlines()`. -/
def pySplitlines (l : List Char) : List (List Char) :=
  pySplitlinesGo [] l

/- cipher_rookie_agent.py -/

/-- `ETAOIN`: the fixed English plaintext letter-frequency order. -/
def ETAOIN : List Char := "ETAOINSHRDLCUMWFGYPBVKJXQZ".data

/-- `COMMON_WORDS`: the curated word list of the scoring oracle. -/
def COMMON_WORDS : List (List Char) :=
  ["THE", "AND", "THIS", "THAT", "FOR", "OF", "TO", "IN", "ON", "WITH",
   "LLAMA", "LLAMAS", "UNICORN", "UNICORNS", "MISSION", "SECRET", "MESSAGE",
   "BASE", "MOUNTAIN", "ATTACK", "RENDEZVOUS", "AGENT", "HIDDEN", "DANGER",
   "EVIL", "CODE", "ALERT", "UNITS", "GUARD", "EAST", "WEST", "NORTH",
   "SOUTH", "HILLS", "SUMMIT", "THEIR", "FROM", "WHEN", "WHERE", "ARE",
   "IS"].map String.data

/-- `_format_decoded(result, label)`: strip, collapse whitespace, uppercase,
and prepend the label. -/
def formatDecoded (result : List Char) (label : List Char) : List Char :=
  let cleaned := collapseWs (pyStrip result)
  label ++ ": ".data ++ pyUpper cleaned

/-- `_score_plaintext`: the scoring oracle. -/
def scorePlaintext (text : List Char) : ℚ :=
  let uppercase := pyUpper text
  let words := splitRuns (fun c => asciiUppercase.contains c) uppercase
  let hits := (words.filter (fun word => COMMON_WORDS.contains word)).length
  let vowelFrac : ℚ :=
    (uppercase.countP (fun c => "AEIOU".data.contains c) : ℚ) / (max uppercase.length 1 : ℚ)
  let spaceBonus := uppercase.count ' '
  let penalty : ℚ := (uppercase.countP (fun c => "QXZJ".data.contains c) : ℚ) * (1/2)
  (hits : ℚ) * 20 + vowelFrac * 10 + (spaceBonus : ℚ) - penalty

/-- Python `str.index` restricted to one character: index of the first
occurrence, `none` modeling the `ValueError` raised when absent. -/
def pyIndex : List Char → Char → Option ℕ
  | [], _ => none
  | a :: as, c => if a == c then some 0 else (pyIndex as c).map (· + 1)

/-- `_shift_character`: rotate a letter within its own case's ASCII alphabet;
`none`-table characters pass through.  Python classifies non-ASCII letters
(such as `µ`) as alphabetic but `alphabet.index` then raises `ValueError`,
modeled by the `Except.error` branch. -/
def shiftCharacter (ch : Char) (shift : ℕ) : Except (List Char) Char :=
  if pyIsAlpha ch then
    let alphabet := if pyIsUpper ch then asciiUppercase else asciiLowercase
    match pyIndex alphabet ch with
    | none => .error "ValueError: substring not found".data
    | some idx =>
      match alphabet[(idx + shift) % 26]? with
      | some d => .ok d
      | none => .error "IndexError: string index out of range".data
  else .ok ch

/-- Sequential character-wise mapping that aborts at the first exception
(Python evaluates the generator inside `"".join` left to right). -/
def mapExcept (f : Char → Except (List Char) Char) : List Char → Except (List Char) (List Char)
  | [] => .ok []
  | c :: cs =>
    match f c with
    | .error e => .error e
    | .ok d =>
      match mapExcept f cs with
      | .error e => .error e
      | .ok ds => .ok (d :: ds)

/-- `_decode_caesar`. -/
def decodeCaesar (text : List Char) (shift : ℕ) : Except (List Char) (List Char) :=
  mapExcept (fun ch => shiftCharacter ch shift) text

/-- `score > best_score` where `best_score` starts at `-math.inf` (modeled by
`none`). -/
def gtOpt (s : ℚ) (b : Option ℚ) : Bool :=
  match b with
  | none => true
  | some q => decide (q < s)

/-- The shared best-candidate update: keep the new candidate only when its
score strictly exceeds the best score so far. -/
def bestFoldStep (best : List Char × Option ℚ) (candidate : List Char) :
    List Char × Option ℚ :=
  let score := scorePlaintext candidate
  if gtOpt score best.2 then (candidate, some score) else best

/-- The shift loop of `caesar_cipher_decoder`: each candidate is decoded
(possibly raising) and then scored. -/
def caesarLoop (ct : List Char) :
    List ℕ → List Char × Option ℚ → Except (List Char) (List Char × Option ℚ)
  | [], best => .ok best
  | shift :: rest, best =>
    match decodeCaesar ct shift with
    | .error e => .error e
    | .ok candidate => caesarLoop ct rest (bestFoldStep best candidate)

/-- `caesar_cipher_decoder`: brute-force shifts 1..25 and format the best
candidate.  There is no try/except in the source, so the exception of
`_shift_character` propagates to the caller (the `Except.error` case). -/
def caesarCipherDecoder (ct : List Char) : Except (List Char) (List Char) :=
  (caesarLoop ct (List.range' 1 25) (ct, none)).map
    (fun best => formatDecoded best.1 "DECODED".data)

/-- The candidate plaintext of shift `shift` (projection used to state the
theorems; coincides with the `Except.ok` payload of `decodeCaesar`). -/
def caesarCand (ct : List Char) (shift : ℕ) : List Char :=
  (decodeCaesar ct shift).toOption.getD []

/-- The `decode_char` helper of `atbash_cipher_decoder`: mirror a letter
around the alphabet midpoint, preserving case.  On non-ASCII letters Python
computes `chr` of a negative number (or `ord` of a multi-character upper),
raising; both paths are modeled as errors. -/
def atbashChar (ch : Char) : Except (List Char) Char :=
  if pyIsAlpha ch then
    let base : ℤ := if pyIsUpper ch then 65 else 97
    match pyCharUpper ch with
    | [u] =>
      let mirrored : ℤ := 25 - ((u.toNat : ℤ) - 65)
      if 0 ≤ base + mirrored ∧ base + mirrored < 1114112 then
        .ok (Char.ofNat (base + mirrored).toNat)
      else .error "ValueError: chr() arg not in range(0x110000)".data
    | _ => .error "TypeError: ord() expected a character".data
  else .ok ch

/-- The character-wise pass of `atbash_cipher_decoder`. -/
def atbashChars (text : List Char) : Except (List Char) (List Char) :=
  mapExcept atbashChar text

/-- `atbash_cipher_decoder` (again no try/except in the source). -/
def atbashCipherDecoder (ct : List Char) : Except (List Char) (List Char) :=
  (atbashChars ct).map (fun plaintext => formatDecoded plaintext "DECODED".data)

/-- The mirror map `A` to `Z`, `B` to `Y`, ... with case preserved (used to
state the Atbash theorems; the table pairs each alphabet with its reverse). -/
def atbashMirrorTable : List (Char × Char) :=
  asciiUppercase.zip asciiUppercase.reverse ++ asciiLowercase.zip asciiLowercase.reverse

/-- Mirror of one ASCII letter (identity elsewhere). -/
def atbashMirror (c : Char) : Char :=
  (atbashMirrorTable.lookup c).getD c

/-- Worker for `_build_initial_key`'s final loop: walk the key slots in order
and pop the next remaining plaintext letter into each still-empty slot.
(Python would raise `IndexError` popping an empty remainder; that state is
unreachable because the frequency pairing already fills all 26 slots.) -/
def fillEmptySlots : List (Option Char) → List Char → List Char
  | [], _ => []
  | some c :: rest, remaining => c :: fillEmptySlots rest remaining
  | none :: rest, r :: rs => r :: fillEmptySlots rest rs
  | none :: rest, [] => fillEmptySlots rest []

/-- `_build_initial_key`: frequency-seeded substitution key.  Python's
`sorted(..., key=..., reverse=True)` is a stable descending sort, modeled by
`List.insertionSort` with the reflexive descending comparison (equal counts
keep their original alphabet order). -/
def buildInitialKey (ciphertext : List Char) : List Char :=
  let uppercase := (pyUpper ciphertext).filter (fun ch => asciiUppercase.contains ch)
  let counts := fun letter => uppercase.count letter
  let orderedCipherLetters :=
    asciiUppercase.insertionSort (fun a b => counts b ≤ counts a)
  let plaintextOrder := ETAOIN ++ asciiUppercase.filter (fun letter => !ETAOIN.contains letter)
  let pairs := orderedCipherLetters.zip plaintextOrder
  let key : List (Option Char) := pairs.foldl
    (fun key p =>
      match pyIndex asciiUppercase p.1 with
      | some keyIndex => key.set keyIndex (some p.2)
      | none => key)
    (List.replicate 26 none)
  let usedPlainLetters := pairs.map Prod.snd
  let remainingPlainLetters :=
    asciiUppercase.filter (fun letter => !usedPlainLetters.contains letter)
  fillEmptySlots key remainingPlainLetters

/-- `_decrypt_with_key`: map each character through the cipher-to-plain
table keyed by its uppercase form, restoring the original case; characters
whose uppercase form is not a table key (non-letters, non-ASCII letters,
multi-character uppercases such as `ß`) pass through unchanged. -/
def decryptWithKey (key : List Char) (text : List Char) : List Char :=
  let table := asciiUppercase.zip key
  text.map (fun ch =>
    match pyCharUpper ch with
    | [upper] =>
      match table.lookup upper with
      | some decoded => if pyIsUpper ch then decoded else pyCharLower decoded
      | none => ch
    | _ => ch)

/-- `_swap_key_positions`: copy the key and exchange the entries at `i` and
`j` (both values read from the original key, as Python's tuple swap does). -/
def swapKeyPositions (key : List Char) (i j : ℕ) : List Char :=
  (key.set i (key.getD j 'A')).set j (key.getD i 'A')

/-- The loop state of `_hill_climb`: the current key and the best plaintext
and score retained so far (in the source the three variables `key`,
`best_plain`, `best_score`). -/
structure HillState where
  key : List Char
  bestPlain : List Char
  bestScore : ℚ
deriving DecidableEq

/-- One iteration of `_hill_climb`: swap two key positions, decode, score,
and accept the swap only when the score strictly improves.  The sampled pair
of positions is the iteration's input (the Mersenne-Twister stream of
`random.Random(hash(ciphertext) + seed)` is not part of the embedded
source; it enters as an oracle). -/
def hillClimbStep (ciphertext : List Char) (st : HillState) (ij : ℕ × ℕ) : HillState :=
  let swappedKey := swapKeyPositions st.key ij.1 ij.2
  let candidatePlain := decryptWithKey swappedKey ciphertext
  let candidateScore := scorePlaintext candidatePlain
  if st.bestScore < candidateScore then
    { key := swappedKey, bestPlain := candidatePlain, bestScore := candidateScore }
  else st

/-- The initial state of `_hill_climb` (frequency-seeded key, its decode and
score). -/
def hillClimbInit (ciphertext : List Char) : HillState :=
  let key := buildInitialKey ciphertext
  let bestPlain := decryptWithKey key ciphertext
  { key := key, bestPlain := bestPlain, bestScore := scorePlaintext bestPlain }

/-- `_hill_climb`, with the random pair stream abstracted as the list of
sampled position pairs (length 2000 in the source). -/
def hillClimb (ciphertext : List Char) (swaps : List (ℕ × ℕ)) : HillState :=
  swaps.foldl (hillClimbStep ciphertext) (hillClimbInit ciphertext)

/-- `simple_substitution_decoder`: 10 restart attempts, each a hill climb
with its own swap stream (derived in the source from
`hash(ciphertext) + attempt`); the best-scoring plaintext across attempts is
formatted.  `best_score` starts at `-math.inf` (`none`). -/
def simpleSubstitutionDecoder (ct : List Char) (swapStream : ℕ → List (ℕ × ℕ)) :
    List Char :=
  let candidates := (List.range 10).map (fun attempt => (hillClimb ct (swapStream attempt)).bestPlain)
  let best := candidates.foldl bestFoldStep (ct, none)
  formatDecoded best.1 "DECODED".data

/- pattern_detective_agent.py -/

/-- `MORSE_TO_CHAR`: the fixed dot/dash-to-character table. -/
def MORSE_TO_CHAR : List (List Char × Char) :=
  [(".-", 'A'), ("-...", 'B'), ("-.-.", 'C'), ("-..", 'D'), (".", 'E'),
   ("..-.", 'F'), ("--.", 'G'), ("....", 'H'), ("..", 'I'), (".---", 'J'),
   ("-.-", 'K'), (".-..", 'L'), ("--", 'M'), ("-.", 'N'), ("---", 'O'),
   (".--.", 'P'), ("--.-", 'Q'), (".-.", 'R'), ("...", 'S'), ("-", 'T'),
   ("..-", 'U'), ("...-", 'V'), (".--", 'W'), ("-..-", 'X'), ("-.--", 'Y'),
   ("--..", 'Z'), ("-----", '0'), (".----", '1'), ("..---", '2'),
   ("...--", '3'), ("....-", '4'), (".....", '5'), ("-....", '6'),
   ("--...", '7'), ("---..", '8'), ("----.", '9')].map
    (fun p => (String.data p.1, p.2))

/-- `_normalize_morse_input`: strip, then rewrite `|` to `/`, triple spaces
to padded slashes, pad every slash, and split on whitespace. -/
def normalizeMorseInput (encryptedText : List Char) : List (List Char) :=
  let normalized := pyReplace (pyStrip encryptedText) "|".data "/".data
  let normalized := pyReplace normalized "   ".data " / ".data
  let normalized := pyReplace normalized "/".data " / ".data
  pySplitWs normalized

/-- The token loop of `_decode_morse`: `/` becomes a space, a table hit its
letter, and the first unmatched token raises (aborting with no partial
output). -/
def morseGo : List (List Char) → Except (List Char) (List Char)
  | [] => .ok []
  | tok :: rest =>
    if tok = "/".data then (morseGo rest).map (fun ds => ' ' :: ds)
    else
      match MORSE_TO_CHAR.lookup tok with
      | none => .error ("Unknown Morse symbol: ".data ++ tok)
      | some letter => (morseGo rest).map (fun ds => letter :: ds)

/-- `_decode_morse`. -/
def decodeMorse (encryptedText : List Char) : Except (List Char) (List Char) :=
  (morseGo (normalizeMorseInput encryptedText)).map
    (fun decodedMessage => pyStrip (collapseWs decodedMessage))

/-- `_format_decoded_text`. -/
def formatDecodedText (text : List Char) : List Char :=
  pyUpper (collapseWs (pyStrip text))

/-- `morse_code_decoder`: the try/except at the tool boundary converts the
`ValueError` into the formatted error string. -/
def morseCodeDecoder (encryptedText : List Char) : List Char :=
  match decodeMorse encryptedText with
  | .ok decoded => "DECODED: ".data ++ formatDecodedText decoded
  | .error e => "Error decoding Morse code: ".data ++ e

/-- Worker for `_rail_pattern`: emit the current rail, reverse direction at
the boundaries, and move (`rail` and `direction` are Python ints). -/
def railPatternGo (rails : ℕ) : ℕ → ℤ → ℤ → List ℤ
  | 0, _, _ => []
  | n + 1, rail, dir =>
    let dir2 := if rail = 0 then 1 else if rail = (rails : ℤ) - 1 then -1 else dir
    rail :: railPatternGo rails n (rail + dir2) dir2

/-- `_rail_pattern`: rail index for each character position. -/
def railPattern (numChars rails : ℕ) : List ℤ :=
  railPatternGo rails numChars 0 1

/-- The chunk partition of `_rail_fence_decode`: successive slices of the
cleaned text whose lengths are the per-rail counts (ascending rail index,
matching the dict built by the source's enumerate loop). -/
def chunksOf : List ℕ → List Char → List (List Char)
  | [], _ => []
  | count :: rest, s => s.take count :: chunksOf rest (s.drop count)

/-- The reconstruction walk of `_rail_fence_decode`: for each pattern entry,
take the next unused character of that rail's chunk.  Out-of-table rail
indices (`dict` KeyError) and out-of-range chunk positions (IndexError) are
modeled by `none`. -/
def railCollect : List ℤ → List (List Char) → List ℕ → Option (List Char)
  | [], _, _ => some []
  | r :: rest, chunks, positions =>
    if r < 0 then none
    else
      match chunks[r.toNat]?, positions[r.toNat]? with
      | some chunk, some pos =>
        match chunk[pos]? with
        | some ch =>
          (railCollect rest chunks (positions.set r.toNat (pos + 1))).map
            (fun out => ch :: out)
        | none => none
      | _, _ => none

/-- `_rail_fence_decode`: strip all whitespace, return the stripped text
unchanged in the degenerate cases, otherwise partition into rail chunks and
walk the zigzag pattern. -/
def railFenceDecode (cipherText : List Char) (rails : ℕ) : Option (List Char) :=
  let cleaned := cipherText.filter (fun ch => !pyIsSpace ch)
  let length := cleaned.length
  if rails ≤ 1 || length ≤ rails then some cleaned
  else
    let pattern := railPattern length rails
    let counts := (List.range rails).map (fun (r : ℕ) => pattern.count (r : ℤ))
    let chunks := chunksOf counts cleaned
    railCollect pattern chunks (List.replicate rails 0)

/- steganography_hunter_agent.py -/

/-- `_format_result`. -/
def formatResult (message : List Char) : List Char :=
  pyUpper (collapseWs (pyStrip message))

/-- `_first_letters_of_lines`: first character of each non-blank line. -/
def firstLettersOfLines (text : List Char) : List Char :=
  (pySplitlines text).filterMap (fun line => (pyStrip line).head?)

/-- The regex class `[A-Za-z0-9]`. -/
def pyIsAlnum (c : Char) : Bool :=
  asciiUppercase.contains c || asciiLowercase.contains c || c.isDigit

/-- `_first_letters_of_words`: first character of the first word of each
line that has one. -/
def firstLettersOfWords (text : List Char) : List Char :=
  (pySplitlines text).filterMap
    (fun line => ((splitRuns pyIsAlnum line).head?).bind List.head?)

/-- Worker for `splitSentences`: `re.split(r"[.!?]+", text)` keeps empty
pieces, and a run of delimiters produces one split (`skipping` is true while
consuming a delimiter run). -/
def splitSentGo (skipping : Bool) (current : List Char) : List Char → List (List Char)
  | [] => [current.reverse]
  | c :: cs =>
    if ".!?".data.contains c then
      if skipping then splitSentGo true current cs
      else current.reverse :: splitSentGo true [] cs
    else splitSentGo false (c :: current) cs

/-- `re.split(r"[.!?]+", text)`. -/
def splitSentences (text : List Char) : List (List Char) :=
  splitSentGo false [] text

/-- `_first_letters_of_sentences`. -/
def firstLettersOfSentences (text : List Char) : List Char :=
  (splitSentences text).filterMap (fun sentence => (pyStrip sentence).head?)

/-- The regex class `[A-Za-z]` (`re.sub(r"[^A-Za-z]", "", ...)` keeps exactly
these). -/
def isAsciiLetter (c : Char) : Bool :=
  asciiUppercase.contains c || asciiLowercase.contains c

/-- `_pick_acrostic_candidate`: first candidate whose letters-only cleanup is
non-empty. -/
def pickAcrosticCandidate : List (List Char) → Option (List Char)
  | [] => none
  | candidate :: rest =>
    let cleaned := candidate.filter isAsciiLetter
    if cleaned.isEmpty then pickAcrosticCandidate rest else some cleaned

/-- `acrostic_detector`: the three strategies in fixed priority order; the
`if message:` truthiness test of the source is the `isEmpty` check. -/
def acrosticDetector (text : List Char) : List Char :=
  let candidates :=
    [firstLettersOfLines text, firstLettersOfWords text, firstLettersOfSentences text]
  match pickAcrosticCandidate candidates with
  | some message =>
    if message.isEmpty then "NO HIDDEN MESSAGE DETECTED".data
    else "DECODED: ".data ++ formatResult message
  | none => "NO HIDDEN MESSAGE DETECTED".data

/-- Worker for `tokenizeNumbers` (`re.findall(r"-?\d+", text)`): maximal
digit runs, taking a directly preceding `-` when the next character is a
digit; `current` is the token in progress, reversed. -/
def tokNumGo (current : List Char) : List Char → List (List Char)
  | [] => if current.isEmpty then [] else [current.reverse]
  | c :: cs =>
    if c.isDigit then tokNumGo (c :: current) cs
    else
      let flushed := if current.isEmpty then ([] : List (List Char)) else [current.reverse]
      match cs with
      | d :: _ =>
        if c = '-' && d.isDigit then flushed ++ tokNumGo ['-'] cs
        else flushed ++ tokNumGo [] cs
      | [] => flushed

/-- `_tokenize_numbers`. -/
def tokenizeNumbers (text : List Char) : List (List Char) :=
  tokNumGo [] text

/-- Value of a digit run. -/
def digitsVal (l : List Char) : ℕ :=
  l.foldl (fun acc c => 10 * acc + (c.toNat - 48)) 0

/-- Python `int(token)` on a `-?\d+` token. -/
def pyIntVal (token : List Char) : ℤ :=
  match token with
  | '-' :: ds => -(digitsVal ds : ℤ)
  | ds => (digitsVal ds : ℤ)

/-- The token loop of `_try_a1z26`: `0` maps to a space, `1..26` to the
letter, anything else invalidates the whole decode. -/
def a1z26Go : List (List Char) → Option (List Char)
  | [] => some []
  | token :: rest =>
    let value := pyIntVal token
    if value = 0 then (a1z26Go rest).map (fun ds => ' ' :: ds)
    else if 1 ≤ value ∧ value ≤ 26 then
      (a1z26Go rest).map (fun ds => Char.ofNat (64 + value.toNat) :: ds)
    else none

/-- `_try_a1z26` (the final `if decoded_chars:` emptiness test included). -/
def tryA1Z26 (tokens : List (List Char)) : Option (List Char) :=
  match a1z26Go tokens with
  | some decodedChars => if decodedChars.isEmpty then none else some decodedChars
  | none => none

/-- `numeric_encoding_decoder`: sentinel when no tokens are found or the
mapping fails; `if a1z26:` truthiness is the `isEmpty` test. -/
def numericEncodingDecoder (text : List Char) : List Char :=
  let tokens := tokenizeNumbers text
  if tokens.isEmpty then "NO VALID ENCODING DETECTED".data
  else
    match tryA1Z26 tokens with
    | some a => if a.isEmpty then "NO VALID ENCODING DETECTED".data
                else "DECODED: ".data ++ formatResult a
    | none => "NO VALID ENCODING DETECTED".data

/- Proof-side definitions -/

/-- The scoring formula exactly as the specification words it (written
independently of `scorePlaintext` to be compared with it): 20 times the
whole-word matches, plus 10 times the vowel fraction, plus the space count,
minus 0.5 times the Q/X/Z/J count, all over the uppercased text. -/
def scoreSpec (text : List Char) : ℚ :=
  let u := pyUpper text
  20 * (((splitRuns (fun c => asciiUppercase.contains c) u).filter
          (fun w => COMMON_WORDS.contains w)).length : ℚ)
    + 10 * ((u.countP (fun c => "AEIOU".data.contains c) : ℚ) / (max u.length 1 : ℚ))
    + (u.count ' ' : ℚ)
    - (1/2) * (u.countP (fun c => "QXZJ".data.contains c) : ℚ)

/-- Pop-style reformulation of `railCollect` used in the permutation proof:
the state holds, for each rail, the still-unconsumed suffix of its chunk. -/
def popWalk : List ℤ → List (List Char) → Option (List Char)
  | [], _ => some []
  | r :: rest, rem =>
    if r < 0 then none
    else
      match rem[r.toNat]? with
      | none => none
      | some [] => none
      | some (c :: tl) => (popWalk rest (rem.set r.toNat tl)).map (fun out => c :: out)

/- Helper lemmas: case mapping -/

/-- Uppercasing the lowercase partner of any `caseTable` pair agrees with
uppercasing the uppercase partner. -/
theorem caseTable_upper_pairs : ∀ p ∈ caseTable, pyCharUpper p.2 = pyCharUpper p.1 := by
  decide

/-- `upper (lower c) = upper c` character-wise. -/
theorem pyCharUpper_pyCharLower (c : Char) :
    pyCharUpper (pyCharLower c) = pyCharUpper c := by
  cases h : caseTable.lookup c with
  | none => simp [pyCharLower, h]
  | some l =>
    have hmem : (c, l) ∈ caseTable := by
      obtain ⟨l₁, l₂, hl, -⟩ := List.lookup_eq_some_iff.mp h
      rw [hl]
      exact List.mem_append_right _ (List.mem_cons_self _ _)
    have hp := caseTable_upper_pairs (c, l) hmem
    simpa [pyCharLower, h] using hp

/-- `upper (lower s) = upper s` string-wise. -/
theorem pyUpper_pyLower (t : List Char) : pyUpper (pyLower t) = pyUpper t := by
  induction t with
  | nil => rfl
  | cons c cs ih =>
    simp only [pyUpper, pyLower, List.map_cons, List.flatMap_cons] at *
    rw [pyCharUpper_pyCharLower, ih]

/-- C8.  The scoring oracle equals the specification's formula (20 times the
whole-word hits, plus 10 times vowel count over `max(length, 1)`, plus the
space count, minus 0.5 times the Q/X/Z/J count, computed case-insensitively
on the uppercased text), and is invariant under lowercasing its input. -/
theorem score_oracle_formula (t : List Char) :
    scorePlaintext t = scoreSpec t ∧ scorePlaintext t = scorePlaintext (pyLower t) := by
  constructor
  · simp only [scorePlaintext, scoreSpec]
    ring
  · simp only [scorePlaintext, pyUpper_pyLower]

/-- C9.  The acrostic extractor tries first-letters-of-lines, then
first-letters-of-first-words, then first-letters-of-sentences, in that
order, returns the first whose letters-only cleanup is non-empty as a
`DECODED:` result, and returns the sentinel when all three are empty. -/
theorem acrostic_priority_selection (t : List Char) :
    ((firstLettersOfLines t).filter isAsciiLetter ≠ [] →
      acrosticDetector t =
        "DECODED: ".data ++ formatResult ((firstLettersOfLines t).filter isAsciiLetter)) ∧
    ((firstLettersOfLines t).filter isAsciiLetter = [] →
      (firstLettersOfWords t).filter isAsciiLetter ≠ [] →
      acrosticDetector t =
        "DECODED: ".data ++ formatResult ((firstLettersOfWords t).filter isAsciiLetter)) ∧
    ((firstLettersOfLines t).filter isAsciiLetter = [] →
      (firstLettersOfWords t).filter isAsciiLetter = [] →
      (firstLettersOfSentences t).filter isAsciiLetter ≠ [] →
      acrosticDetector t =
        "DECODED: ".data ++ formatResult ((firstLettersOfSentences t).filter isAsciiLetter)) ∧
    ((firstLettersOfLines t).filter isAsciiLetter = [] →
      (firstLettersOfWords t).filter isAsciiLetter = [] →
      (firstLettersOfSentences t).filter isAsciiLetter = [] →
      acrosticDetector t = "NO HIDDEN MESSAGE DETECTED".data) := by
  refine ⟨fun h1 => ?_, fun h1 h2 => ?_, fun h1 h2 h3 => ?_, fun h1 h2 h3 => ?_⟩
  · simp [acrosticDetector, pickAcrosticCandidate, h1, List.isEmpty_iff]
  · simp [acrosticDetector, pickAcrosticCandidate, h1, h2, List.isEmpty_iff]
  · simp [acrosticDetector, pickAcrosticCandidate, h1, h2, h3, List.isEmpty_iff]
  · simp [acrosticDetector, pickAcrosticCandidate, h1, h2, h3, List.isEmpty_iff]

/-- C9 witness: on a text whose line initials spell a word, the first
strategy is selected. -/
theorem acrostic_priority_selection_witness :
    acrosticDetector "Help arrived.\nInside now.\nNobody saw us.".data =
      "DECODED: ".data ++ formatResult
        (("Help arrived.\nInside now.\nNobody saw us.".data |> firstLettersOfLines).filter
          isAsciiLetter) :=
  (acrostic_priority_selection "Help arrived.\nInside now.\nNobody saw us.".data).1
    (by decide)

/-- C3 counterexample: with internal whitespace in the ciphertext, the
degenerate rail-fence case does not return the input unchanged — it returns
the whitespace-stripped text (`rails = 5` is at least the stripped length 2,
so the degenerate branch is taken, yet the result differs from the input). -/
theorem rail_fence_degenerate_counterexample :
    railFenceDecode "a b".data 5 = some "ab".data ∧
    railFenceDecode "a b".data 5 ≠ some "a b".data := by
  decide

/-- C3 (amended).  In the degenerate cases (`rails` at most 1, or `rails` at
least the length of the whitespace-stripped ciphertext) the rail-fence
decode returns the whitespace-stripped ciphertext unchanged; in particular
it returns the input itself whenever the input contains no whitespace. -/
theorem rail_fence_degenerate (s : List Char) (rails : ℕ)
    (h : rails ≤ 1 ∨ (s.filter (fun c => !pyIsSpace c)).length ≤ rails) :
    railFenceDecode s rails = some (s.filter (fun c => !pyIsSpace c)) ∧
    ((∀ c ∈ s, pyIsSpace c = false) → railFenceDecode s rails = some s) := by
  have h1 : railFenceDecode s rails = some (s.filter (fun c => !pyIsSpace c)) := by
    unfold railFenceDecode
    rcases h with h | h <;> simp [h]
  refine ⟨h1, fun hs => ?_⟩
  have hf : s.filter (fun c => !pyIsSpace c) = s :=
    List.filter_eq_self.mpr (fun a ha => by simp [hs a ha])
  rw [h1, hf]

/-- C3 witness: a concrete whitespace-free input with `rails` at least its
length comes back unchanged. -/
theorem rail_fence_degenerate_witness :
    railFenceDecode "ab".data 5 = some ("ab".data.filter (fun c => !pyIsSpace c)) ∧
    ((∀ c ∈ "ab".data, pyIsSpace c = false) → railFenceDecode "ab".data 5 = some "ab".data) :=
  rail_fence_degenerate "ab".data 5 (Or.inr (by decide))

/-- C2.  The spec promises that every decoder returns a string outcome and
never raises, but `caesar_cipher_decoder` and `atbash_cipher_decoder` have
no try/except: on the non-ASCII letter `µ` (which Python classifies as
alphabetic but which is not in the ASCII alphabets) both raise — Caesar from
`str.index`, Atbash from `chr` of a negative number. -/
theorem caesar_decoder_uncaught_value_error :
    caesarCipherDecoder "µ".data =
      Except.error "ValueError: substring not found".data ∧
    atbashCipherDecoder "µ".data =
      Except.error "ValueError: chr() arg not in range(0x110000)".data :=
  ⟨rfl, rfl⟩

/- Helper lemmas: A1Z26 -/

/-- When every token value is in `0..26`, the A1Z26 loop maps token `0` to a
space and token `v` in `1..26` to the `v`-th letter. -/
theorem a1z26Go_ok (toks : List (List Char))
    (h : ∀ t ∈ toks, 0 ≤ pyIntVal t ∧ pyIntVal t ≤ 26) :
    a1z26Go toks = some (toks.map (fun t =>
      if pyIntVal t = 0 then ' ' else Char.ofNat (64 + (pyIntVal t).toNat))) := by
  induction toks with
  | nil => rfl
  | cons t rest ih =>
    obtain ⟨h0, h26⟩ := h t (List.mem_cons_self t rest)
    have hrest := ih (fun u hu => h u (List.mem_cons_of_mem t hu))
    by_cases hz : pyIntVal t = 0
    · simp [a1z26Go, hz, hrest]
    · have h1 : 1 ≤ pyIntVal t := by omega
      simp [a1z26Go, hz, h1, h26, hrest]

/-- A token value outside `0..26` anywhere invalidates the whole loop. -/
theorem a1z26Go_bad (toks : List (List Char))
    (h : ∃ t ∈ toks, pyIntVal t < 0 ∨ 26 < pyIntVal t) :
    a1z26Go toks = none := by
  induction toks with
  | nil => simp at h
  | cons t rest ih =>
    rcases h with ⟨u, hu, hbad⟩
    rcases List.mem_cons.mp hu with rfl | humem
    · have hz : ¬ pyIntVal u = 0 := by omega
      have hr : ¬ (1 ≤ pyIntVal u ∧ pyIntVal u ≤ 26) := by omega
      simp [a1z26Go, hz, hr]
    · have hrest := ih ⟨u, humem, hbad⟩
      by_cases hz : pyIntVal t = 0
      · simp [a1z26Go, hz, hrest]
      · by_cases h126 : 1 ≤ pyIntVal t ∧ pyIntVal t ≤ 26
        · simp [a1z26Go, hz, h126, hrest]
        · simp [a1z26Go, hz, h126]

/-- C6.  The numeric (A1Z26) decoder: the sentinel is returned when no
integer token is found or when any token value lies outside `0..26` (no
partial output); otherwise `0` maps to a space, `1..26` to the letter, and
the concatenated text is returned uppercased/collapsed behind `DECODED: `. -/
theorem numeric_decoder_a1z26_spec (s : List Char) :
    (tokenizeNumbers s = [] →
      numericEncodingDecoder s = "NO VALID ENCODING DETECTED".data) ∧
    ((∃ t ∈ tokenizeNumbers s, pyIntVal t < 0 ∨ 26 < pyIntVal t) →
      numericEncodingDecoder s = "NO VALID ENCODING DETECTED".data) ∧
    (tokenizeNumbers s ≠ [] →
      (∀ t ∈ tokenizeNumbers s, 0 ≤ pyIntVal t ∧ pyIntVal t ≤ 26) →
      numericEncodingDecoder s = "DECODED: ".data ++
        formatResult ((tokenizeNumbers s).map (fun t =>
          if pyIntVal t = 0 then ' ' else Char.ofNat (64 + (pyIntVal t).toNat)))) := by
  refine ⟨fun h => ?_, fun h => ?_, fun hne hall => ?_⟩
  · simp [numericEncodingDecoder, h]
  · have hne : ¬ (tokenizeNumbers s).isEmpty = true := by
      rcases h with ⟨t, ht, -⟩
      simp [List.isEmpty_iff]
      exact List.ne_nil_of_mem ht
    simp [numericEncodingDecoder, hne, tryA1Z26, a1z26Go_bad _ h]
  · have hmapne : (tokenizeNumbers s).map (fun t =>
        if pyIntVal t = 0 then ' ' else Char.ofNat (64 + (pyIntVal t).toNat)) ≠ [] := by
      simp [hne]
    simp [numericEncodingDecoder, List.isEmpty_iff, hne, tryA1Z26,
      a1z26Go_ok _ hall, hmapne]

/-- C6 witness: `"8 5 12 12 15"` decodes (its tokens are all in range). -/
theorem numeric_decoder_a1z26_witness :
    numericEncodingDecoder "8 5 12 12 15".data = "DECODED: ".data ++
      formatResult ((tokenizeNumbers "8 5 12 12 15".data).map (fun t =>
        if pyIntVal t = 0 then ' ' else Char.ofNat (64 + (pyIntVal t).toNat))) :=
  (numeric_decoder_a1z26_spec "8 5 12 12 15".data).2.2 (by decide) (by decide)

/- Helper lemmas: Morse -/

/-- When every token is a word separator or a table key, the Morse token
loop succeeds. -/
theorem morseGo_all_ok (toks : List (List Char))
    (h : ∀ t ∈ toks, t = "/".data ∨ (MORSE_TO_CHAR.lookup t).isSome) :
    ∃ d, morseGo toks = Except.ok d := by
  induction toks with
  | nil => exact ⟨[], rfl⟩
  | cons t rest ih =>
    obtain ⟨d, hd⟩ := ih (fun u hu => h u (List.mem_cons_of_mem t hu))
    by_cases hs : t = "/".data
    · exact ⟨' ' :: d, by simp [morseGo, hs, hd, Except.map]⟩
    · rcases h t (List.mem_cons_self t rest) with hs' | hsome
      · exact absurd hs' hs
      · obtain ⟨letter, hl⟩ := Option.isSome_iff_exists.mp hsome
        exact ⟨letter :: d, by simp [morseGo, hs, hl, hd, Except.map]⟩

/-- The first out-of-table token aborts the Morse loop with the error that
names it. -/
theorem morseGo_first_bad (pre : List (List Char)) (t : List Char) (post : List (List Char))
    (hpre : ∀ u ∈ pre, u = "/".data ∨ (MORSE_TO_CHAR.lookup u).isSome)
    (hbad : ¬(t = "/".data ∨ (MORSE_TO_CHAR.lookup t).isSome)) :
    morseGo (pre ++ t :: post) = Except.error ("Unknown Morse symbol: ".data ++ t) := by
  induction pre with
  | nil =>
    push_neg at hbad
    obtain ⟨hne, hnone⟩ := hbad
    have hnone2 : MORSE_TO_CHAR.lookup t = none :=
      Option.not_isSome_iff_eq_none.mp (by simpa using hnone)
    simp [morseGo, hne, hnone2]
  | cons u pre ih =>
    have hu := hpre u (List.mem_cons_self u pre)
    have ihp := ih (fun v hv => hpre v (List.mem_cons_of_mem u hv))
    by_cases hs : u = "/".data
    · simp [morseGo, hs, ihp, Except.map]
    · rcases hu with hs' | hsome
      · exact absurd hs' hs
      · obtain ⟨letter, hl⟩ := Option.isSome_iff_exists.mp hsome
        simp [morseGo, hs, hl, ihp, Except.map]

/-- If not every token is acceptable, there is a first unacceptable one. -/
theorem exists_first_bad_token (toks : List (List Char))
    (h : ¬ ∀ t ∈ toks, t = "/".data ∨ (MORSE_TO_CHAR.lookup t).isSome) :
    ∃ pre t post, toks = pre ++ t :: post ∧
      (∀ u ∈ pre, u = "/".data ∨ (MORSE_TO_CHAR.lookup u).isSome) ∧
      ¬(t = "/".data ∨ (MORSE_TO_CHAR.lookup t).isSome) := by
  induction toks with
  | nil => exact absurd (by simp) h
  | cons t rest ih =>
    by_cases hg : t = "/".data ∨ (MORSE_TO_CHAR.lookup t).isSome
    · have hrest : ¬ ∀ u ∈ rest, u = "/".data ∨ (MORSE_TO_CHAR.lookup u).isSome := by
        intro hall
        exact h (fun u hu => by
          rcases List.mem_cons.mp hu with rfl | hm
          · exact hg
          · exact hall u hm)
      obtain ⟨pre, x, post, heq, hpre, hbad⟩ := ih hrest
      refine ⟨t :: pre, x, post, by rw [heq]; rfl, ?_, hbad⟩
      intro u hu
      rcases List.mem_cons.mp hu with rfl | hm
      · exact hg
      · exact hpre u hm
    · exact ⟨[], t, rest, rfl, by simp, hg⟩

/-- C5.  The Morse decoder returns a `DECODED: ` string exactly when every
whitespace-separated token of the normalized input is the word separator `/`
or an exact key of the fixed table, and the first unmatched token aborts the
whole decode with an error string naming that token. -/
theorem morse_decoder_table_match (s : List Char) :
    ((∀ t ∈ normalizeMorseInput s, t = "/".data ∨ (MORSE_TO_CHAR.lookup t).isSome) ↔
      ∃ d, morseCodeDecoder s = "DECODED: ".data ++ d) ∧
    (∀ pre t post, normalizeMorseInput s = pre ++ t :: post →
      (∀ u ∈ pre, u = "/".data ∨ (MORSE_TO_CHAR.lookup u).isSome) →
      ¬(t = "/".data ∨ (MORSE_TO_CHAR.lookup t).isSome) →
      morseCodeDecoder s =
        "Error decoding Morse code: Unknown Morse symbol: ".data ++ t) := by
  have herr : ∀ pre t post, normalizeMorseInput s = pre ++ t :: post →
      (∀ u ∈ pre, u = "/".data ∨ (MORSE_TO_CHAR.lookup u).isSome) →
      ¬(t = "/".data ∨ (MORSE_TO_CHAR.lookup t).isSome) →
      morseCodeDecoder s =
        "Error decoding Morse code: Unknown Morse symbol: ".data ++ t := by
    intro pre t post heq hpre hbad
    have hgo := morseGo_first_bad pre t post hpre hbad
    have hsplit : "Error decoding Morse code: Unknown Morse symbol: ".data =
        "Error decoding Morse code: ".data ++ "Unknown Morse symbol: ".data := rfl
    simp [morseCodeDecoder, decodeMorse, heq, hgo, hsplit, Except.map]
  refine ⟨⟨fun hall => ?_, fun hdec => ?_⟩, herr⟩
  · obtain ⟨d, hd⟩ := morseGo_all_ok _ hall
    exact ⟨formatDecodedText (pyStrip (collapseWs d)),
      by simp [morseCodeDecoder, decodeMorse, hd, Except.map]⟩
  · by_contra hnot
    obtain ⟨pre, t, post, heq, hpre, hbad⟩ := exists_first_bad_token _ hnot
    obtain ⟨d, hd⟩ := hdec
    rw [herr pre t post heq hpre hbad] at hd
    have hE : ("Error decoding Morse code: Unknown Morse symbol: ".data ++ t).head? =
        some 'E' := rfl
    rw [hd] at hE
    have hD : ("DECODED: ".data ++ d).head? = some 'D' := rfl
    rw [hD] at hE
    simp at hE

/-- C5 witness: `".- xyz"` has the well-formed token `.-` followed by the
unknown token `xyz`, and the decoder reports exactly that token. -/
theorem morse_decoder_table_match_witness :
    morseCodeDecoder ".- xyz".data =
      "Error decoding Morse code: Unknown Morse symbol: ".data ++ "xyz".data :=
  (morse_decoder_table_match ".- xyz".data).2 [".-".data] "xyz".data []
    (by decide) (by decide) (by decide)

/- Helper lemmas: Atbash -/

/-- An `Except` whose `toOption` is `some` is an `ok`. -/
theorem except_eq_ok_of_toOption {ε α : Type} (e : Except ε α) (x : α)
    (h : e.toOption = some x) : e = Except.ok x := by
  cases e with
  | ok a => simpa [Except.toOption] using h
  | error b => simp [Except.toOption] at h

/-- On uppercase ASCII letters, `decode_char` succeeds and mirrors within the
uppercase alphabet. -/
theorem atbash_upper_pairs : ∀ c ∈ asciiUppercase,
    (atbashChar c).toOption = some (atbashMirror c) ∧ atbashMirror c ∈ asciiUppercase := by
  decide

/-- On lowercase ASCII letters, `decode_char` succeeds and mirrors within the
lowercase alphabet. -/
theorem atbash_lower_pairs : ∀ c ∈ asciiLowercase,
    (atbashChar c).toOption = some (atbashMirror c) ∧ atbashMirror c ∈ asciiLowercase := by
  decide

/-- The mirror is an involution on ASCII letters. -/
theorem atbash_mirror_invol : ∀ c ∈ asciiUppercase ++ asciiLowercase,
    atbashMirror (atbashMirror c) = c := by
  decide

/-- On all-ASCII-letter strings the character pass computes the mirror map. -/
theorem atbashChars_eq_map (s : List Char)
    (h : ∀ c ∈ s, c ∈ asciiUppercase ∨ c ∈ asciiLowercase) :
    atbashChars s = Except.ok (s.map atbashMirror) := by
  induction s with
  | nil => rfl
  | cons c cs ih =>
    have hc : atbashChar c = Except.ok (atbashMirror c) := by
      rcases h c (List.mem_cons_self c cs) with hu | hl
      · exact except_eq_ok_of_toOption _ _ (atbash_upper_pairs c hu).1
      · exact except_eq_ok_of_toOption _ _ (atbash_lower_pairs c hl).1
    have ihc := ih (fun d hd => h d (List.mem_cons_of_mem c hd))
    simp only [atbashChars, mapExcept, hc] at *
    simp [ihc]

/-- C7.  The Atbash character transform is self-inverse on all-letter input:
it computes the midpoint mirror, applying it twice restores the input, the
mirror preserves case, and non-letters pass through unchanged. -/
theorem atbash_self_inverse (s : List Char)
    (h : ∀ c ∈ s, c ∈ asciiUppercase ∨ c ∈ asciiLowercase) :
    atbashChars s = Except.ok (s.map atbashMirror) ∧
    atbashChars (s.map atbashMirror) = Except.ok s ∧
    (s.map atbashMirror).map atbashMirror = s ∧
    (∀ c ∈ s, (c ∈ asciiUppercase → atbashMirror c ∈ asciiUppercase) ∧
      (c ∈ asciiLowercase → atbashMirror c ∈ asciiLowercase)) ∧
    (∀ c, pyIsAlpha c = false → atbashChar c = Except.ok c) := by
  have hmap : ∀ c ∈ s, c ∈ asciiUppercase ∨ c ∈ asciiLowercase →
      (atbashMirror c ∈ asciiUppercase ∨ atbashMirror c ∈ asciiLowercase) := by
    intro c _ hc
    rcases hc with hu | hl
    · exact Or.inl (atbash_upper_pairs c hu).2
    · exact Or.inr (atbash_lower_pairs c hl).2
  have h2 : ∀ d ∈ s.map atbashMirror, d ∈ asciiUppercase ∨ d ∈ asciiLowercase := by
    intro d hd
    obtain ⟨c, hc, rfl⟩ := List.mem_map.mp hd
    exact hmap c hc (h c hc)
  have hinv : (s.map atbashMirror).map atbashMirror = s := by
    rw [List.map_map]
    have : ∀ c ∈ s, (atbashMirror ∘ atbashMirror) c = id c := by
      intro c hc
      have : c ∈ asciiUppercase ++ asciiLowercase := by
        rcases h c hc with hu | hl
        · exact List.mem_append_left _ hu
        · exact List.mem_append_right _ hl
      simpa using atbash_mirror_invol c this
    rw [List.map_congr_left this, List.map_id]
  refine ⟨atbashChars_eq_map s h, ?_, hinv, ?_, ?_⟩
  · rw [atbashChars_eq_map _ h2, hinv]
  · intro c hc
    exact ⟨fun hu => (atbash_upper_pairs c hu).2, fun hl => (atbash_lower_pairs c hl).2⟩
  · intro c hna
    simp [atbashChar, hna]

/-- C7 witness: a concrete mixed-case all-letter string round-trips. -/
theorem atbash_self_inverse_witness :
    atbashChars "AzMn".data = Except.ok ("AzMn".data.map atbashMirror) ∧
    atbashChars ("AzMn".data.map atbashMirror) = Except.ok "AzMn".data :=
  ⟨(atbash_self_inverse "AzMn".data (by decide)).1,
   (atbash_self_inverse "AzMn".data (by decide)).2.1⟩

/- Helper lemmas: best-candidate folds -/

/-- The strict-improvement fold either never improves on the initial pair, or
lands on the first candidate attaining the maximum: everything before it
scores strictly less, everything after it at most as much. -/
theorem bestFold_first (xs : List (List Char)) (init : List Char × Option ℚ) :
    (xs.foldl bestFoldStep init = init ∧
      ∀ x ∈ xs, gtOpt (scorePlaintext x) init.2 = false) ∨
    (∃ pre x post, xs = pre ++ x :: post ∧
      xs.foldl bestFoldStep init = (x, some (scorePlaintext x)) ∧
      gtOpt (scorePlaintext x) init.2 = true ∧
      (∀ y ∈ pre, scorePlaintext y < scorePlaintext x) ∧
      (∀ y ∈ post, scorePlaintext y ≤ scorePlaintext x)) := by
  induction xs generalizing init with
  | nil => exact Or.inl ⟨rfl, by simp⟩
  | cons x rest ih =>
    by_cases hx : gtOpt (scorePlaintext x) init.2 = true
    · have hstep : bestFoldStep init x = (x, some (scorePlaintext x)) := by
        simp [bestFoldStep, hx]
      rcases ih (x, some (scorePlaintext x)) with ⟨heq, hall⟩ |
        ⟨pre, z, post, hxs, hres, hgt, hpre, hpost⟩
      · refine Or.inr ⟨[], x, rest, rfl, ?_, hx, by simp, ?_⟩
        · simp [List.foldl_cons, hstep, heq]
        · intro y hy
          have hle := hall y hy
          simp only [gtOpt, decide_eq_false_iff_not] at hle
          exact le_of_not_lt hle
      · have hxz : scorePlaintext x < scorePlaintext z := by
          simpa [gtOpt] using hgt
        refine Or.inr ⟨x :: pre, z, post, by rw [hxs]; rfl, ?_, ?_, ?_, hpost⟩
        · simp [List.foldl_cons, hstep, hres]
        · cases hi : init.2 with
          | none => simp [gtOpt]
          | some q =>
            have hq : q < scorePlaintext x := by simpa [gtOpt, hi] using hx
            simp only [gtOpt, decide_eq_true_eq]
            exact lt_trans hq hxz
        · intro y hy
          rcases List.mem_cons.mp hy with rfl | hm
          · exact hxz
          · exact hpre y hm
    · have hstep : bestFoldStep init x = init := by
        simp only [bestFoldStep]
        rw [if_neg (by simpa using hx)]
      rcases ih init with ⟨heq, hall⟩ | ⟨pre, z, post, hxs, hres, hgt, hpre, hpost⟩
      · refine Or.inl ⟨by simp [List.foldl_cons, hstep, heq], ?_⟩
        intro y hy
        rcases List.mem_cons.mp hy with rfl | hm
        · exact Bool.eq_false_iff.mpr hx
        · exact hall y hm
      · refine Or.inr ⟨x :: pre, z, post, by rw [hxs]; rfl,
          by simp [List.foldl_cons, hstep, hres], hgt, ?_, hpost⟩
        intro y hy
        rcases List.mem_cons.mp hy with rfl | hm
        · cases hi : init.2 with
          | none => rw [hi] at hx; simp [gtOpt] at hx
          | some q =>
            have h1 : ¬ q < scorePlaintext y := by
              rw [hi] at hx; simpa [gtOpt] using hx
            have h2 : q < scorePlaintext z := by
              rw [hi] at hgt; simpa [gtOpt] using hgt
            exact lt_of_le_of_lt (le_of_not_lt h1) h2
        · exact hpre y hm

/-- C1.  A hill-climb swap is accepted only on strict score improvement
(an iteration that changes the state strictly increases the best score, and
every iteration keeps it at least as large), the retained score is
non-decreasing across any run of iterations, and the substitution decoder
returns the best-scoring candidate across the 10 restart attempts. -/
theorem substitution_hill_climb (ct : List Char) (swapStream : ℕ → List (ℕ × ℕ)) :
    (∀ st ij, st.bestScore ≤ (hillClimbStep ct st ij).bestScore) ∧
    (∀ st ij, hillClimbStep ct st ij ≠ st →
      st.bestScore < (hillClimbStep ct st ij).bestScore) ∧
    (∀ (swaps : List (ℕ × ℕ)) st,
      st.bestScore ≤ (swaps.foldl (hillClimbStep ct) st).bestScore) ∧
    (∃ k, k < 10 ∧
      simpleSubstitutionDecoder ct swapStream =
        formatDecoded (hillClimb ct (swapStream k)).bestPlain "DECODED".data ∧
      ∀ j, j < 10 →
        scorePlaintext (hillClimb ct (swapStream j)).bestPlain ≤
          scorePlaintext (hillClimb ct (swapStream k)).bestPlain) := by
  have hmono : ∀ st ij, st.bestScore ≤ (hillClimbStep ct st ij).bestScore := by
    intro st ij
    simp only [hillClimbStep]
    split
    · next h => exact le_of_lt h
    · exact le_refl _
  have hstrict : ∀ st ij, hillClimbStep ct st ij ≠ st →
      st.bestScore < (hillClimbStep ct st ij).bestScore := by
    intro st ij hne
    by_cases h : st.bestScore <
        scorePlaintext (decryptWithKey (swapKeyPositions st.key ij.1 ij.2) ct)
    · simp only [hillClimbStep]
      rw [if_pos h]
      exact h
    · exact absurd (by simp [hillClimbStep, h]) hne
  have hfold : ∀ (swaps : List (ℕ × ℕ)) st,
      st.bestScore ≤ (swaps.foldl (hillClimbStep ct) st).bestScore := by
    intro swaps
    induction swaps with
    | nil => intro st; exact le_refl _
    | cons ij rest ih =>
      intro st
      exact le_trans (hmono st ij) (ih (hillClimbStep ct st ij))
  refine ⟨hmono, hstrict, hfold, ?_⟩
  rcases bestFold_first
      ((List.range 10).map (fun a => (hillClimb ct (swapStream a)).bestPlain))
      (ct, none) with ⟨heq, hall⟩ | ⟨pre, x, post, hxs, hres, hgt, hpre, hpost⟩
  · exfalso
    have hmem : (hillClimb ct (swapStream 0)).bestPlain ∈
        (List.range 10).map (fun a => (hillClimb ct (swapStream a)).bestPlain) :=
      List.mem_map.mpr ⟨0, List.mem_range.mpr (by norm_num), rfl⟩
    have := hall _ hmem
    simp [gtOpt] at this
  · have hxmem : x ∈ (List.range 10).map
        (fun a => (hillClimb ct (swapStream a)).bestPlain) := by
      rw [hxs]
      exact List.mem_append_right _ (List.mem_cons_self _ _)
    obtain ⟨k, hk, hfk⟩ := List.mem_map.mp hxmem
    refine ⟨k, List.mem_range.mp hk, ?_, ?_⟩
    · have hdef : simpleSubstitutionDecoder ct swapStream =
          formatDecoded (((List.range 10).map
            (fun a => (hillClimb ct (swapStream a)).bestPlain)).foldl
              bestFoldStep (ct, none)).1 "DECODED".data := rfl
      rw [hdef, hres, hfk]
    · intro j hj
      rw [hfk]
      have hmem : (hillClimb ct (swapStream j)).bestPlain ∈
          (List.range 10).map (fun a => (hillClimb ct (swapStream a)).bestPlain) :=
        List.mem_map.mpr ⟨j, List.mem_range.mpr hj, rfl⟩
      rw [hxs] at hmem
      rcases List.mem_append.mp hmem with hp | hxp
      · exact le_of_lt (hpre _ hp)
      · rcases List.mem_cons.mp hxp with heq2 | hpost2
        · rw [heq2]
        · exact hpost _ hpost2

/-- C1 witness: a concrete improving swap changes the state and strictly
raises the retained score. -/
theorem substitution_hill_climb_witness :
    hillClimbStep "A".data ⟨asciiUppercase, [], -1000⟩ (0, 1) ≠
      (⟨asciiUppercase, [], -1000⟩ : HillState) ∧
    (-1000 : ℚ) < (hillClimbStep "A".data ⟨asciiUppercase, [], -1000⟩ (0, 1)).bestScore :=
  ⟨by with_unfolding_all decide, (substitution_hill_climb "A".data (fun _ => [])).2.1
    ⟨asciiUppercase, [], -1000⟩ (0, 1) (by with_unfolding_all decide)⟩

/- Helper lemmas: Caesar -/

/-- Every ASCII uppercase letter is a Python letter classified as upper. -/
theorem ascii_upper_class : ∀ c ∈ asciiUppercase,
    pyIsAlpha c = true ∧ pyIsUpper c = true := by
  decide

/-- Every ASCII lowercase letter is a Python letter not classified as upper. -/
theorem ascii_lower_class : ∀ c ∈ asciiLowercase,
    pyIsAlpha c = true ∧ pyIsUpper c = false := by
  decide

/-- All the non-ASCII letters of the model have code points at least 128. -/
theorem latin_letters_not_ascii :
    (∀ c ∈ latin1Uppers, 128 ≤ c.toNat) ∧ (∀ c ∈ latin1Lowers, 128 ≤ c.toNat) ∧
    (∀ c ∈ extraLowerChars, 128 ≤ c.toNat) := by
  decide

/-- A member has an index, and the index is in range. -/
theorem pyIndex_of_mem (l : List Char) (c : Char) (h : c ∈ l) :
    ∃ i, pyIndex l c = some i ∧ i < l.length := by
  induction l with
  | nil => simp at h
  | cons a as ih =>
    by_cases hac : a == c
    · exact ⟨0, by simp [pyIndex, hac], by simp⟩
    · rcases List.mem_cons.mp h with rfl | hm
      · simp at hac
      · obtain ⟨i, hi, hlen⟩ := ih hm
        exact ⟨i + 1, by simp [pyIndex, hac, hi], by simpa using Nat.succ_lt_succ hlen⟩

/-- On an uppercase ASCII letter, `_shift_character` rotates within the
uppercase alphabet. -/
theorem shiftCharacter_upper (c : Char) (k : ℕ) (hc : c ∈ asciiUppercase) :
    ∃ i, pyIndex asciiUppercase c = some i ∧
      shiftCharacter c k = Except.ok (asciiUppercase.getD ((i + k) % 26) 'A') ∧
      asciiUppercase.getD ((i + k) % 26) 'A' ∈ asciiUppercase := by
  obtain ⟨halpha, hupper⟩ := ascii_upper_class c hc
  obtain ⟨i, hi, hlen⟩ := pyIndex_of_mem _ _ hc
  have hmod : (i + k) % 26 < asciiUppercase.length := by
    rw [show asciiUppercase.length = 26 from rfl]
    exact Nat.mod_lt _ (by norm_num)
  have hget : asciiUppercase[(i + k) % 26]? =
      some (asciiUppercase.getD ((i + k) % 26) 'A') := by
    rw [List.getElem?_eq_getElem hmod, List.getD_eq_getElem _ _ hmod]
  refine ⟨i, hi, ?_, ?_⟩
  · simp only [shiftCharacter, halpha, hupper, eq_self_iff_true, if_true, hi, hget]
  · rw [List.getD_eq_getElem _ _ hmod]
    exact List.getElem_mem hmod

/-- On a lowercase ASCII letter, `_shift_character` rotates within the
lowercase alphabet. -/
theorem shiftCharacter_lower (c : Char) (k : ℕ) (hc : c ∈ asciiLowercase) :
    ∃ i, pyIndex asciiLowercase c = some i ∧
      shiftCharacter c k = Except.ok (asciiLowercase.getD ((i + k) % 26) 'A') ∧
      asciiLowercase.getD ((i + k) % 26) 'A' ∈ asciiLowercase := by
  obtain ⟨halpha, hupper⟩ := ascii_lower_class c hc
  obtain ⟨i, hi, hlen⟩ := pyIndex_of_mem _ _ hc
  have hmod : (i + k) % 26 < asciiLowercase.length := by
    rw [show asciiLowercase.length = 26 from rfl]
    exact Nat.mod_lt _ (by norm_num)
  have hget : asciiLowercase[(i + k) % 26]? =
      some (asciiLowercase.getD ((i + k) % 26) 'A') := by
    rw [List.getElem?_eq_getElem hmod, List.getD_eq_getElem _ _ hmod]
  refine ⟨i, hi, ?_, ?_⟩
  · simp only [shiftCharacter, halpha, hupper, Bool.false_eq_true, if_false, hi, hget,
      if_true]
  · rw [List.getD_eq_getElem _ _ hmod]
    exact List.getElem_mem hmod

/-- Every ASCII character shifts without raising. -/
theorem shiftCharacter_ascii_ok (c : Char) (k : ℕ) (h : c.toNat < 128) :
    ∃ d, shiftCharacter c k = Except.ok d := by
  by_cases ha : pyIsAlpha c = true
  · by_cases hu : pyIsUpper c = true
    · have hmem : c ∈ asciiUppercase := by
        have h2 : c ∈ asciiUppercase ∨ c ∈ latin1Uppers := by simpa [pyIsUpper] using hu
        rcases h2 with hm | hm
        · exact hm
        · exact absurd (latin_letters_not_ascii.1 c hm) (by omega)
      obtain ⟨i, -, hok, -⟩ := shiftCharacter_upper c k hmem
      exact ⟨_, hok⟩
    · have hl : pyIsLower c = true := by
        have h2 : pyIsUpper c = true ∨ pyIsLower c = true := by
          simpa [pyIsAlpha] using ha
        rcases h2 with hm | hm
        · exact absurd hm hu
        · exact hm
      have hmem : c ∈ asciiLowercase := by
        have h2 : c ∈ asciiLowercase ∨ c ∈ latin1Lowers ∨ c ∈ extraLowerChars := by
          simpa [pyIsLower, or_assoc] using hl
        rcases h2 with hm | hm | hm
        · exact hm
        · exact absurd (latin_letters_not_ascii.2.1 c hm) (by omega)
        · exact absurd (latin_letters_not_ascii.2.2 c hm) (by omega)
      obtain ⟨i, -, hok, -⟩ := shiftCharacter_lower c k hmem
      exact ⟨_, hok⟩
  · exact ⟨c, by simp [shiftCharacter, ha]⟩

/-- A character-wise pass with no failing character succeeds. -/
theorem mapExcept_ok (f : Char → Except (List Char) Char) (l : List Char)
    (h : ∀ c ∈ l, ∃ d, f c = Except.ok d) :
    ∃ res, mapExcept f l = Except.ok res := by
  induction l with
  | nil => exact ⟨[], rfl⟩
  | cons c cs ih =>
    obtain ⟨d, hd⟩ := h c (List.mem_cons_self c cs)
    obtain ⟨res, hres⟩ := ih (fun x hx => h x (List.mem_cons_of_mem c hx))
    exact ⟨d :: res, by simp [mapExcept, hd, hres]⟩

/-- On ASCII input every shift decodes to its candidate. -/
theorem decodeCaesar_cand (ct : List Char) (k : ℕ) (hA : ∀ c ∈ ct, c.toNat < 128) :
    decodeCaesar ct k = Except.ok (caesarCand ct k) := by
  obtain ⟨res, hres⟩ :=
    mapExcept_ok _ ct (fun c hc => shiftCharacter_ascii_ok c k (hA c hc))
  simp [caesarCand, decodeCaesar] at hres ⊢
  simp [hres, Except.toOption]

/-- When every shift decodes, the Caesar loop is the pure best-candidate
fold over the decoded candidates. -/
theorem caesarLoop_ok (ct : List Char) (ks : List ℕ) (best : List Char × Option ℚ)
    (h : ∀ k ∈ ks, decodeCaesar ct k = Except.ok (caesarCand ct k)) :
    caesarLoop ct ks best = Except.ok ((ks.map (caesarCand ct)).foldl bestFoldStep best) := by
  induction ks generalizing best with
  | nil => rfl
  | cons k ks ih =>
    have hk := h k (List.mem_cons_self k ks)
    simp only [caesarLoop, hk, List.map_cons, List.foldl_cons]
    exact ih _ (fun j hj => h j (List.mem_cons_of_mem k hj))

/-- A decomposition of a mapped list lifts to the underlying list. -/
theorem map_eq_append_cons {α β : Type} (f : α → β) (l : List α) (l₁ : List β)
    (y : β) (l₂ : List β) (h : l.map f = l₁ ++ y :: l₂) :
    ∃ m₁ a m₂, l = m₁ ++ a :: m₂ ∧ l₁ = m₁.map f ∧ y = f a ∧ l₂ = m₂.map f := by
  induction l generalizing l₁ with
  | nil => cases l₁ <;> simp at h
  | cons a as ih =>
    cases l₁ with
    | nil =>
      simp only [List.map_cons, List.nil_append, List.cons.injEq] at h
      exact ⟨[], a, as, rfl, rfl, h.1.symm, h.2.symm⟩
    | cons b bs =>
      simp only [List.map_cons, List.cons_append, List.cons.injEq] at h
      obtain ⟨m₁, x, m₂, hl, hbs, hy, hl₂⟩ := ih bs h.2
      exact ⟨a :: m₁, x, m₂, by rw [hl]; rfl, by simp [hbs, h.1.symm], hy, hl₂⟩

/-- C4 counterexample: the claim quantifies over every input string, but on
the non-ASCII letter `µ` the Caesar solver raises instead of returning a
`DECODED: ` string. -/
theorem caesar_decoder_nonascii_counterexample :
    caesarCipherDecoder "µ".data =
      Except.error "ValueError: substring not found".data ∧
    ∀ r, caesarCipherDecoder "µ".data ≠ Except.ok r := by
  refine ⟨rfl, fun r h => ?_⟩
  rw [show caesarCipherDecoder "µ".data =
      Except.error "ValueError: substring not found".data from rfl] at h
  exact Except.noConfusion h

/-- C4 (amended to ASCII inputs).  On every ASCII input the Caesar solver
scores exactly the shifts 1..25 (0 is not among them), keeps the strictly
best-scoring candidate with the first (lowest) shift winning ties, and
returns it formatted as `DECODED: ` plus the uppercased, whitespace-collapsed
plaintext; each candidate rotates letters within their own case's alphabet
and passes non-letters through unchanged. -/
theorem caesar_decoder_ascii_spec (ct : List Char) (hA : ∀ c ∈ ct, c.toNat < 128) :
    (∃ pre k post, List.range' 1 25 = pre ++ k :: post ∧
      (0 : ℕ) ∉ List.range' 1 25 ∧
      caesarCipherDecoder ct =
        Except.ok (formatDecoded (caesarCand ct k) "DECODED".data) ∧
      formatDecoded (caesarCand ct k) "DECODED".data =
        "DECODED: ".data ++ pyUpper (collapseWs (pyStrip (caesarCand ct k))) ∧
      decodeCaesar ct k = Except.ok (caesarCand ct k) ∧
      (∀ j ∈ pre, j < k) ∧ (∀ j ∈ post, k < j) ∧
      (∀ j ∈ pre, scorePlaintext (caesarCand ct j) < scorePlaintext (caesarCand ct k)) ∧
      (∀ j ∈ post, scorePlaintext (caesarCand ct j) ≤ scorePlaintext (caesarCand ct k))) ∧
    (∀ c k, pyIsAlpha c = false → shiftCharacter c k = Except.ok c) ∧
    (∀ c k, c ∈ asciiUppercase →
      ∃ i, pyIndex asciiUppercase c = some i ∧
        shiftCharacter c k = Except.ok (asciiUppercase.getD ((i + k) % 26) 'A') ∧
        asciiUppercase.getD ((i + k) % 26) 'A' ∈ asciiUppercase) ∧
    (∀ c k, c ∈ asciiLowercase →
      ∃ i, pyIndex asciiLowercase c = some i ∧
        shiftCharacter c k = Except.ok (asciiLowercase.getD ((i + k) % 26) 'A') ∧
        asciiLowercase.getD ((i + k) % 26) 'A' ∈ asciiLowercase) := by
  refine ⟨?_, ?_, fun c k hc => shiftCharacter_upper c k hc,
    fun c k hc => shiftCharacter_lower c k hc⟩
  · have hdec : ∀ k ∈ List.range' 1 25, decodeCaesar ct k = Except.ok (caesarCand ct k) :=
      fun k _ => decodeCaesar_cand ct k hA
    have hloop := caesarLoop_ok ct (List.range' 1 25) (ct, none) hdec
    rcases bestFold_first ((List.range' 1 25).map (caesarCand ct)) (ct, none) with
      ⟨heq, hall⟩ | ⟨preC, x, postC, hxs, hres, hgt, hpre, hpost⟩
    · exfalso
      have hmem : caesarCand ct 1 ∈ (List.range' 1 25).map (caesarCand ct) :=
        List.mem_map.mpr ⟨1, by decide, rfl⟩
      have := hall _ hmem
      simp [gtOpt] at this
    · obtain ⟨pre, k, post, hdecomp, hpreC, hx, hpostC⟩ :=
        map_eq_append_cons (caesarCand ct) (List.range' 1 25) preC x postC hxs
      have hpw := List.pairwise_lt_range' 1 25
      rw [hdecomp] at hpw
      obtain ⟨-, hpw2, hcross⟩ := List.pairwise_append.mp hpw
      refine ⟨pre, k, post, hdecomp, by decide, ?_, rfl, hdec k ?_, ?_, ?_, ?_, ?_⟩
      · have : caesarCipherDecoder ct =
            (caesarLoop ct (List.range' 1 25) (ct, none)).map
              (fun best => formatDecoded best.1 "DECODED".data) := rfl
        rw [this, hloop, hres, hx]
        rfl
      · rw [hdecomp]
        exact List.mem_append_right _ (List.mem_cons_self _ _)
      · exact fun j hj => hcross j hj k (List.mem_cons_self _ _)
      · exact fun j hj => (List.pairwise_cons.mp hpw2).1 j hj
      · intro j hj
        have := hpre (caesarCand ct j) (by rw [hpreC]; exact List.mem_map_of_mem _ hj)
        rw [← hx]
        exact this
      · intro j hj
        have := hpost (caesarCand ct j) (by rw [hpostC]; exact List.mem_map_of_mem _ hj)
        rw [← hx]
        exact this
  · intro c k hna
    simp [shiftCharacter, hna]

/-- C4 witness: the ASCII ciphertext `"WKH"` is decoded through the shift
search (the hypothesis of the amended claim holds concretely). -/
theorem caesar_decoder_ascii_spec_witness :
    ∃ pre k post, List.range' 1 25 = pre ++ k :: post ∧
      (0 : ℕ) ∉ List.range' 1 25 ∧
      caesarCipherDecoder "WKH".data =
        Except.ok (formatDecoded (caesarCand "WKH".data k) "DECODED".data) ∧
      formatDecoded (caesarCand "WKH".data k) "DECODED".data =
        "DECODED: ".data ++ pyUpper (collapseWs (pyStrip (caesarCand "WKH".data k))) ∧
      decodeCaesar "WKH".data k = Except.ok (caesarCand "WKH".data k) ∧
      (∀ j ∈ pre, j < k) ∧ (∀ j ∈ post, k < j) ∧
      (∀ j ∈ pre,
        scorePlaintext (caesarCand "WKH".data j) < scorePlaintext (caesarCand "WKH".data k)) ∧
      (∀ j ∈ post,
        scorePlaintext (caesarCand "WKH".data j) ≤ scorePlaintext (caesarCand "WKH".data k)) :=
  (caesar_decoder_ascii_spec "WKH".data (by decide)).1

/- Helper lemmas: rail fence -/

/-- The pattern has one rail index per character position. -/
theorem railPatternGo_length (rails : ℕ) :
    ∀ (n : ℕ) (rail dir : ℤ), (railPatternGo rails n rail dir).length = n := by
  intro n
  induction n with
  | zero => intro rail dir; rfl
  | succ n ih => intro rail dir; simp [railPatternGo, ih]

/-- With at least two rails, every entry of the zigzag pattern stays within
`[0, rails)`. -/
theorem railPatternGo_bounds (rails : ℕ) (h2 : 2 ≤ rails) :
    ∀ (n : ℕ) (rail dir : ℤ), 0 ≤ rail → rail < (rails : ℤ) →
      (dir = 1 ∨ dir = -1) →
      ∀ x ∈ railPatternGo rails n rail dir, 0 ≤ x ∧ x < (rails : ℤ) := by
  intro n
  induction n with
  | zero => intro rail dir _ _ _ x hx; simp [railPatternGo] at hx
  | succ n ih =>
    intro rail dir h0 hlt hdir x hx
    simp only [railPatternGo, List.mem_cons] at hx
    rcases hx with rfl | hx
    · exact ⟨h0, hlt⟩
    · have hd2cases : (if rail = 0 then (1 : ℤ)
          else if rail = (rails : ℤ) - 1 then -1 else dir) = 1 ∨
          (if rail = 0 then (1 : ℤ)
          else if rail = (rails : ℤ) - 1 then -1 else dir) = -1 := by
        split_ifs with h1 h2
        · exact Or.inl rfl
        · exact Or.inr rfl
        · exact hdir
      have hbound : 0 ≤ rail + (if rail = 0 then (1 : ℤ)
            else if rail = (rails : ℤ) - 1 then -1 else dir) ∧
          rail + (if rail = 0 then (1 : ℤ)
            else if rail = (rails : ℤ) - 1 then -1 else dir) < (rails : ℤ) := by
        split_ifs with h1 h2 <;> rcases hdir with rfl | rfl <;> omega
      exact ih _ _ hbound.1 hbound.2 hd2cases x hx

/-- Pointwise sums distribute over a mapped sum. -/
theorem sum_map_add_distrib (f g : ℕ → ℕ) (L : List ℕ) :
    (L.map (fun r => f r + g r)).sum = (L.map f).sum + (L.map g).sum := by
  induction L with
  | nil => rfl
  | cons a L ih =>
    simp only [List.map_cons, List.sum_cons, ih]
    omega

/-- The sum over `range n` of the indicator of `m < n` is 1. -/
theorem sum_indicator_range (m n : ℕ) (hm : m < n) :
    ((List.range n).map (fun r => if r = m then 1 else 0)).sum = 1 := by
  induction n with
  | zero => omega
  | succ n ih =>
    rw [List.range_succ, List.map_append, List.sum_append]
    by_cases h : m = n
    · subst h
      have hz : ((List.range m).map (fun r => if r = m then 1 else 0)).sum = 0 := by
        apply List.sum_eq_zero
        intro x hx
        obtain ⟨r, hr, rfl⟩ := List.mem_map.mp hx
        simp [Nat.ne_of_lt (List.mem_range.mp hr)]
      simp [hz]
    · have hm' : m < n := by omega
      simp [ih hm', Ne.symm h]

/-- When every entry of an integer list lies in `[0, rails)`, the per-value
counts over `range rails` sum to the list's length. -/
theorem range_count_sum (l : List ℤ) (rails : ℕ)
    (h : ∀ x ∈ l, 0 ≤ x ∧ x < (rails : ℤ)) :
    ((List.range rails).map (fun (r : ℕ) => l.count (r : ℤ))).sum = l.length := by
  induction l with
  | nil => simp
  | cons x xs ih =>
    obtain ⟨h0, hlt⟩ := h x (List.mem_cons_self x xs)
    have htoNat : ((x.toNat : ℕ) : ℤ) = x := Int.toNat_of_nonneg h0
    have hxlt : x.toNat < rails := by omega
    have hcount : ∀ r : ℕ, (x :: xs).count (r : ℤ) =
        xs.count (r : ℤ) + (if r = x.toNat then 1 else 0) := by
      intro r
      by_cases hr : r = x.toNat
      · subst hr
        rw [htoNat, List.count_cons_self]
        simp
      · have hne : (r : ℤ) ≠ x := by omega
        simp [List.count_cons_of_ne hne, hr]
    calc ((List.range rails).map (fun (r : ℕ) => (x :: xs).count (r : ℤ))).sum
        = ((List.range rails).map
            (fun (r : ℕ) => xs.count (r : ℤ) + (if r = x.toNat then 1 else 0))).sum := by
          exact congrArg List.sum (List.map_congr_left (fun r _ => hcount r))
      _ = ((List.range rails).map (fun (r : ℕ) => xs.count (r : ℤ))).sum +
          ((List.range rails).map (fun (r : ℕ) => if r = x.toNat then 1 else 0)).sum :=
          sum_map_add_distrib _ _ _
      _ = xs.length + 1 := by
          rw [ih (fun y hy => h y (List.mem_cons_of_mem x hy)),
            sum_indicator_range _ _ hxlt]
      _ = (x :: xs).length := by simp

/-- There are as many chunks as counts. -/
theorem chunksOf_length (counts : List ℕ) (s : List Char) :
    (chunksOf counts s).length = counts.length := by
  induction counts generalizing s with
  | nil => rfl
  | cons c cs ih => simp [chunksOf, ih]

/-- Concatenating the chunks gives back the first `counts.sum` characters. -/
theorem chunksOf_flatten (counts : List ℕ) (s : List Char) :
    (chunksOf counts s).flatten = s.take counts.sum := by
  induction counts generalizing s with
  | nil => simp [chunksOf]
  | cons c cs ih =>
    simp only [chunksOf, List.flatten_cons, ih, List.sum_cons, List.take_add]

/-- When the counts fit in the text, each chunk has exactly its count's
length. -/
theorem chunksOf_getD_length (counts : List ℕ) (s : List Char) (h : counts.sum ≤ s.length) :
    ∀ i, i < counts.length → ((chunksOf counts s).getD i []).length = counts.getD i 0 := by
  induction counts generalizing s with
  | nil => intro i hi; simp at hi
  | cons c cs ih =>
    intro i hi
    cases i with
    | zero =>
      have hc : c ≤ s.length := by
        simp only [List.sum_cons] at h
        omega
      simp [chunksOf, List.length_take]
      omega
    | succ i =>
      have h' : cs.sum ≤ (s.drop c).length := by
        simp only [List.length_drop]
        simp only [List.sum_cons] at h
        omega
      simpa [chunksOf] using ih (s.drop c) h' i (by simpa using hi)

/-- Index lookup in the zipped drop-state. -/
theorem zipWith_drop_getElem? (chunks : List (List Char)) (pos : List ℕ) (i : ℕ) :
    (List.zipWith (fun ch p => ch.drop p) chunks pos)[i]? =
      (chunks[i]?).bind (fun ch => (pos[i]?).map (fun p => ch.drop p)) := by
  induction chunks generalizing pos i with
  | nil => simp
  | cons ch chs ih =>
    cases pos with
    | nil => simp
    | cons p ps =>
      cases i with
      | zero => simp
      | succ i => simpa using ih ps i

/-- Setting a position corresponds to setting the zipped drop-state. -/
theorem zipWith_drop_set (chunks : List (List Char)) (pos : List ℕ) (i : ℕ)
    (ch : List Char) (p : ℕ) (hc : chunks[i]? = some ch) :
    List.zipWith (fun c q => c.drop q) chunks (pos.set i p) =
      (List.zipWith (fun c q => c.drop q) chunks pos).set i (ch.drop p) := by
  induction chunks generalizing pos i with
  | nil => simp at hc
  | cons x xs ih =>
    cases pos with
    | nil => simp
    | cons q qs =>
      cases i with
      | zero =>
        simp only [List.getElem?_cons_zero, Option.some.injEq] at hc
        simp [List.set, hc]
      | succ i =>
        simp only [List.getElem?_cons_succ] at hc
        simp [List.set, ih qs i hc]

/-- With all positions zero, the zipped drop-state is the chunk list. -/
theorem zipWith_drop_zero (chunks : List (List Char)) :
    List.zipWith (fun c q => c.drop q) chunks (List.replicate chunks.length 0) = chunks := by
  induction chunks with
  | nil => rfl
  | cons x xs ih => simp [List.replicate_succ, ih]

/-- `railCollect` with cursor positions equals the pop-style walk on the
unconsumed chunk suffixes. -/
theorem railCollect_eq_popWalk (pattern : List ℤ) (chunks : List (List Char)) :
    ∀ pos, railCollect pattern chunks pos =
      popWalk pattern (List.zipWith (fun c q => c.drop q) chunks pos) := by
  induction pattern with
  | nil => intro pos; rfl
  | cons r rest ih =>
    intro pos
    by_cases hr : r < 0
    · simp [railCollect, popWalk, hr]
    · have hz := zipWith_drop_getElem? chunks pos r.toNat
      cases hc : chunks[r.toNat]? with
      | none =>
        rw [hc] at hz
        simp only [Option.bind] at hz
        simp [railCollect, popWalk, hr, hc, hz]
      | some ch =>
        cases hp : pos[r.toNat]? with
        | none =>
          rw [hc, hp] at hz
          simp only [Option.bind, Option.map] at hz
          simp [railCollect, popWalk, hr, hc, hp, hz]
        | some p =>
          rw [hc, hp] at hz
          simp only [Option.bind, Option.map] at hz
          cases hcp : ch[p]? with
          | none =>
            have hdropnil : ch.drop p = [] :=
              List.drop_eq_nil_of_le (List.getElem?_eq_none_iff.mp hcp)
            rw [hdropnil] at hz
            simp [railCollect, popWalk, hr, hc, hp, hcp, hz]
          | some c =>
            have hplen : p < ch.length := by
              by_contra hcon
              rw [List.getElem?_eq_none_iff.mpr (le_of_not_lt hcon)] at hcp
              exact Option.noConfusion hcp
            have hcval : ch[p] = c := by
              have h2 := List.getElem?_eq_getElem hplen
              rw [hcp] at h2
              exact (Option.some.injEq _ _).mp h2.symm
            have hdrop : ch.drop p = c :: ch.drop (p + 1) := by
              rw [← hcval]
              exact (List.getElem_cons_drop ch p hplen).symm
            rw [hdrop] at hz
            have hset := zipWith_drop_set chunks pos r.toNat ch (p + 1) hc
            simp only [railCollect, popWalk, hr, if_neg hr, hc, hp, hcp, hz]
            rw [ih (pos.set r.toNat (p + 1)), hset]

/-- Popping the head of the `n`-th block and re-consing it in front permutes
the concatenation. -/
theorem flatten_set_cons_perm (rem : List (List Char)) (n : ℕ) (c : Char)
    (tl : List Char) (h : rem[n]? = some (c :: tl)) :
    (c :: (rem.set n tl).flatten).Perm rem.flatten := by
  induction rem generalizing n with
  | nil => simp at h
  | cons x xs ih =>
    cases n with
    | zero =>
      simp only [List.getElem?_cons_zero, Option.some.injEq] at h
      subst h
      simp [List.set]
    | succ n =>
      simp only [List.getElem?_cons_succ] at h
      have hih := ih n h
      simp only [List.set, List.flatten_cons]
      exact List.perm_middle.symm.trans (hih.append_left x)

/-- The pop walk succeeds and outputs a permutation of the remaining state
whenever each block's length is exactly its remaining pattern count. -/
theorem popWalk_perm (pattern : List ℤ) :
    ∀ rem : List (List Char),
      (∀ x ∈ pattern, 0 ≤ x ∧ x.toNat < rem.length) →
      (∀ i, i < rem.length → (rem.getD i []).length = pattern.count (i : ℤ)) →
      ∃ out, popWalk pattern rem = some out ∧ out.Perm rem.flatten := by
  induction pattern with
  | nil =>
    intro rem _ hlen
    refine ⟨[], rfl, ?_⟩
    have hnil : rem.flatten = [] := by
      rw [List.flatten_eq_nil_iff]
      intro x hx
      obtain ⟨i, hi, rfl⟩ := List.mem_iff_getElem.mp hx
      have := hlen i hi
      rw [List.getD_eq_getElem?_getD, List.getElem?_eq_getElem hi] at this
      simpa [List.count_nil] using this
    rw [hnil]
  | cons r rest ih =>
    intro rem hb hlen
    obtain ⟨hr0, hrlen⟩ := hb r (List.mem_cons_self r rest)
    have hcast : ((r.toNat : ℕ) : ℤ) = r := Int.toNat_of_nonneg hr0
    have hcnt := hlen r.toNat hrlen
    rw [List.getD_eq_getElem?_getD, List.getElem?_eq_getElem hrlen] at hcnt
    rw [hcast, List.count_cons_self] at hcnt
    cases hchunk : rem[r.toNat] with
    | nil =>
      rw [hchunk] at hcnt
      simp at hcnt
    | cons c tl =>
      rw [hchunk] at hcnt
      have hget : rem[r.toNat]? = some (c :: tl) := by
        rw [List.getElem?_eq_getElem hrlen, hchunk]
      have hb' : ∀ x ∈ rest, 0 ≤ x ∧ x.toNat < (rem.set r.toNat tl).length := by
        intro x hx
        have := hb x (List.mem_cons_of_mem r hx)
        simpa [List.length_set] using this
      have hlen' : ∀ i, i < (rem.set r.toNat tl).length →
          ((rem.set r.toNat tl).getD i []).length = rest.count (i : ℤ) := by
        intro i hi
        rw [List.length_set] at hi
        by_cases hir : i = r.toNat
        · rw [hir]
          have hset_len : r.toNat < (rem.set r.toNat tl).length := by
            rw [List.length_set]
            exact hrlen
          have hself : (rem.set r.toNat tl)[r.toNat]? = some tl := by
            rw [List.getElem?_eq_getElem hset_len]
            congr 1
            exact List.getElem_set_self _
          rw [List.getD_eq_getElem?_getD, hself, Option.getD_some, hcast]
          have hlc : tl.length + 1 = rest.count r + 1 := by
            simpa using hcnt
          omega
        · have hne : (rem.set r.toNat tl)[i]? = rem[i]? :=
            List.getElem?_set_ne (fun hh => hir hh.symm)
          rw [List.getD_eq_getElem?_getD, hne, ← List.getD_eq_getElem?_getD]
          have hcntr : (r :: rest).count (i : ℤ) = rest.count (i : ℤ) := by
            apply List.count_cons_of_ne
            intro hh
            apply hir
            omega
          rw [← hcntr]
          exact hlen i hi
      obtain ⟨out, hout, hperm⟩ := ih (rem.set r.toNat tl) hb' hlen'
      refine ⟨c :: out, ?_, ?_⟩
      · simp only [popWalk, if_neg (by omega : ¬ r < 0), hget, hout, Option.map]
      · exact (hperm.cons c).trans (flatten_set_cons_perm rem r.toNat c tl hget)

/-- Core of the rail-fence permutation argument, on the already-stripped
text: the zigzag reconstruction succeeds and permutes the text. -/
theorem rail_fence_core (cleaned : List Char) (rails : ℕ) (h2 : 2 ≤ rails)
    (_hlt : rails < cleaned.length) :
    ∃ out, railCollect (railPattern cleaned.length rails)
        (chunksOf ((List.range rails).map (fun (r : ℕ) =>
          (railPattern cleaned.length rails).count (r : ℤ))) cleaned)
        (List.replicate rails 0) = some out ∧ out.Perm cleaned := by
  have hpatlen : (railPattern cleaned.length rails).length = cleaned.length :=
    railPatternGo_length rails cleaned.length 0 1
  have hbounds : ∀ x ∈ railPattern cleaned.length rails, 0 ≤ x ∧ x < (rails : ℤ) :=
    railPatternGo_bounds rails h2 cleaned.length 0 1 (by omega) (by omega) (Or.inl rfl)
  have hsum : ((List.range rails).map (fun (r : ℕ) =>
      (railPattern cleaned.length rails).count (r : ℤ))).sum = cleaned.length := by
    rw [range_count_sum _ _ hbounds, hpatlen]
  have hchlen : (chunksOf ((List.range rails).map (fun (r : ℕ) =>
      (railPattern cleaned.length rails).count (r : ℤ))) cleaned).length = rails := by
    rw [chunksOf_length, List.length_map, List.length_range]
  have hb : ∀ x ∈ railPattern cleaned.length rails, 0 ≤ x ∧
      x.toNat < (chunksOf ((List.range rails).map (fun (r : ℕ) =>
        (railPattern cleaned.length rails).count (r : ℤ))) cleaned).length := by
    intro x hx
    obtain ⟨h0, hxr⟩ := hbounds x hx
    rw [hchlen]
    omega
  have hlenh : ∀ i, i < (chunksOf ((List.range rails).map (fun (r : ℕ) =>
      (railPattern cleaned.length rails).count (r : ℤ))) cleaned).length →
      ((chunksOf ((List.range rails).map (fun (r : ℕ) =>
        (railPattern cleaned.length rails).count (r : ℤ))) cleaned).getD i []).length =
        (railPattern cleaned.length rails).count (i : ℤ) := by
    intro i hi
    rw [hchlen] at hi
    have hic : i < ((List.range rails).map (fun (r : ℕ) =>
        (railPattern cleaned.length rails).count (r : ℤ))).length := by
      rw [List.length_map, List.length_range]
      exact hi
    rw [chunksOf_getD_length _ _ (by rw [hsum]) i hic]
    have hgi : ((List.range rails).map (fun (r : ℕ) =>
        (railPattern cleaned.length rails).count (r : ℤ)))[i]? =
        some ((railPattern cleaned.length rails).count (i : ℤ)) := by
      rw [List.getElem?_map, List.getElem?_range hi, Option.map_some']
    rw [List.getD_eq_getElem?_getD, hgi, Option.getD_some]
  obtain ⟨out, hout, hperm⟩ := popWalk_perm (railPattern cleaned.length rails) _ hb hlenh
  have hflat : (chunksOf ((List.range rails).map (fun (r : ℕ) =>
      (railPattern cleaned.length rails).count (r : ℤ))) cleaned).flatten = cleaned := by
    rw [chunksOf_flatten, hsum, List.take_length]
  have hzip : List.zipWith (fun c q => c.drop q)
      (chunksOf ((List.range rails).map (fun (r : ℕ) =>
        (railPattern cleaned.length rails).count (r : ℤ))) cleaned)
      (List.replicate rails 0) =
      chunksOf ((List.range rails).map (fun (r : ℕ) =>
        (railPattern cleaned.length rails).count (r : ℤ))) cleaned := by
    have hzz := zipWith_drop_zero (chunksOf ((List.range rails).map (fun (r : ℕ) =>
      (railPattern cleaned.length rails).count (r : ℤ))) cleaned)
    rwa [hchlen] at hzz
  refine ⟨out, ?_, ?_⟩
  · rw [railCollect_eq_popWalk, hzip]
    exact hout
  · rw [hflat] at hperm
    exact hperm

/-- C10.  For every ciphertext and every rail count strictly between 1 and
the stripped length, the rail-fence decode succeeds (every chunk access is
in range) and its output is a permutation of the whitespace-stripped
ciphertext: no character is dropped or duplicated. -/
theorem rail_fence_permutation (s : List Char) (rails : ℕ) (h2 : 2 ≤ rails)
    (hlt : rails < (s.filter (fun c => !pyIsSpace c)).length) :
    ∃ t, railFenceDecode s rails = some t ∧
      t.Perm (s.filter (fun c => !pyIsSpace c)) := by
  obtain ⟨out, hout, hperm⟩ := rail_fence_core (s.filter (fun c => !pyIsSpace c)) rails h2 hlt
  refine ⟨out, ?_, hperm⟩
  have hcond : ¬ ((decide (rails ≤ 1) ||
      decide ((s.filter (fun c => !pyIsSpace c)).length ≤ rails)) = true) := by
    simp only [Bool.or_eq_true, decide_eq_true_eq]
    push_neg
    omega
  simp only [railFenceDecode]
  rw [if_neg hcond]
  exact hout

/-- C10 witness: the concrete ciphertext `"HLOEL"` with 2 rails decodes to a
permutation of itself. -/
theorem rail_fence_permutation_witness :
    ∃ t, railFenceDecode "HLOEL".data 2 = some t ∧
      t.Perm ("HLOEL".data.filter (fun c => !pyIsSpace c)) :=
  rail_fence_permutation "HLOEL".data 2 (by decide) (by decide)
